import Mathlib

/-
Verification of the template resolution and rendering pipeline of a
single-file static site generator (ssg.py).

The embedding works on `List Char` (the `data` of a Python `str`) so that
every function is executable by kernel reduction.  The Python regular
expressions used by the generator are small and fixed, so each one is
translated into an explicit backtracking matcher that mirrors the engine's
leftmost / lazy / greedy priorities for that concrete pattern.

File I/O is modelled by finite association lists: the layouts directory is
a `List (String × String)` from file name to file content, and the content
tree walked by `build` is a `List (List String × String)` of
(content-relative path segments, raw file text).  Printed warnings are
collected in `List String` values; `time.time()` and `datetime.now()` are
passed in as parameters.  Python recursion (which is bounded by the
interpreter's stack) is modelled by an explicit fuel parameter counting
nested `process_includes` calls: `none` means the computation did not
finish within that call depth.
-/

/-- Python regex `\s` on ASCII: space, tab, newline, carriage return,
vertical tab, form feed. -/
def isWS (c : Char) : Bool :=
  c == ' ' || c == '\t' || c == '\n' || c == '\r' || c == Char.ofNat 11 || c == Char.ofNat 12

/-- The character class `["\']` used by both template-directive patterns. -/
def isQuote (c : Char) : Bool :=
  c == '"' || c == '\''

/-- Match a literal string at the head of the input, returning the rest. -/
def dropLit : List Char → List Char → Option (List Char)
  | [], cs => some cs
  | _ :: _, [] => none
  | p :: ps, c :: cs => if c = p then dropLit ps cs else none

/-- `\s*` (greedy): drop the maximal run of whitespace. -/
def dropWSall : List Char → List Char
  | [] => []
  | c :: cs => if isWS c then dropWSall cs else c :: cs

/-- `\s+` followed by a non-whitespace literal: at least one whitespace
character, then the maximal whitespace run. -/
def dropWS1 (cs : List Char) : Option (List Char) :=
  match cs with
  | [] => none
  | c :: cs' => if isWS c then some (dropWSall cs') else none

/-- `["\']\s*>`: the closing of an include directive.  Backtracking is not
needed inside: `>` is not whitespace, so the greedy `\s*` is equivalent to
skipping the maximal whitespace run. -/
def tryClose (cs : List Char) : Option (List Char) :=
  match cs with
  | [] => none
  | c :: cs' =>
    if isQuote c then
      match dropWSall cs' with
      | '>' :: rest => some rest
      | _ => none
    else none

/-- The lazy capture `(.*?)` of `<template include=["\'](.*?)["\']\s*>`:
try the shortest capture first (no `re.DOTALL` here, so the capture may
not contain a newline), extending it while the closing `["\']\s*>` does
not match. -/
def scanName : List Char → Option (List Char × List Char)
  | [] => none
  | c :: cs =>
    match tryClose (c :: cs) with
    | some rest => some ([], rest)
    | none =>
      if c = '\n' then none
      else
        match scanName cs with
        | some (cap, rest) => some (c :: cap, rest)
        | none => none

/-- Match the pattern `<template\s+include=["\'](.*?)["\']\s*>` at the head
of the input.  Returns the captured file name and the input after the
match. -/
def matchInclude (cs : List Char) : Option (List Char × List Char) :=
  match dropLit "<template".data cs with
  | none => none
  | some r1 =>
    match dropWS1 r1 with
    | none => none
    | some r2 =>
      match dropLit "include=".data r2 with
      | none => none
      | some r3 =>
        match r3 with
        | [] => none
        | c :: r4 => if isQuote c then scanName r4 else none

/-- `\s+default=["\'](.*?)["\']` followed by the trailing `\s*>`: the
optional `default` group of the variable pattern, tried greedily.  The
lazy default-value capture closes exactly like an include name. -/
def tryDefault (cs : List Char) : Option (List Char × List Char) :=
  match dropWS1 cs with
  | none => none
  | some r1 =>
    match dropLit "default=".data r1 with
    | none => none
    | some r2 =>
      match r2 with
      | [] => none
      | c :: r3 => if isQuote c then scanName r3 else none

/-- Close a variable-name capture: a quote, then optionally the `default`
group (preferred, since `(?:...)?` is greedy), else directly `\s*>`. -/
def tryVarClose (cs : List Char) : Option (Option (List Char) × List Char) :=
  match cs with
  | [] => none
  | c :: cs' =>
    if isQuote c then
      match tryDefault cs' with
      | some (dv, rest) => some (some dv, rest)
      | none =>
        match dropWSall cs' with
        | '>' :: rest => some (none, rest)
        | _ => none
    else none

/-- The lazy variable-name capture of
`<template\s+variable=["\'](.*?)["\'](?:\s+default=["\'](.*?)["\'])?\s*>`. -/
def scanVarName : List Char → Option (List Char × Option (List Char) × List Char)
  | [] => none
  | c :: cs =>
    match tryVarClose (c :: cs) with
    | some (dv, rest) => some ([], dv, rest)
    | none =>
      if c = '\n' then none
      else
        match scanVarName cs with
        | some (cap, dv, rest) => some (c :: cap, dv, rest)
        | none => none

/-- Match the variable-directive pattern at the head of the input,
returning the variable name, the optional default value, and the rest. -/
def matchVar (cs : List Char) : Option (List Char × Option (List Char) × List Char) :=
  match dropLit "<template".data cs with
  | none => none
  | some r1 =>
    match dropWS1 r1 with
    | none => none
    | some r2 =>
      match dropLit "variable=".data r2 with
      | none => none
      | some r3 =>
        match r3 with
        | [] => none
        | c :: r4 => if isQuote c then scanVarName r4 else none

/-- The layouts directory: look a file name up, `none` models
`Path.exists()` returning false. -/
def lookupFS (fs : List (String × String)) (name : String) : Option String :=
  (fs.find? (fun p => p.1 == name)).map (fun p => p.2)

/-- `variables.get(key)` on a Python dict modelled as an insertion-ordered
association list with unique keys. -/
def dictGet (d : List (String × String)) (k : String) : Option String :=
  (d.find? (fun p => p.1 == k)).map (fun p => p.2)

/-- `d[k] = v` on a Python dict: overwrite in place if the key exists,
else append, preserving insertion order. -/
def dictSet (d : List (String × String)) (k v : String) : List (String × String) :=
  if d.any (fun p => p.1 == k) then
    d.map (fun p => if p.1 == k then (k, v) else p)
  else d ++ [(k, v)]

/-- The warning printed by `process_includes` for a missing include file. -/
def includeWarning (name : List Char) : String :=
  "Warning: Include file not found: " ++ String.mk name

example : matchInclude "<template include=\"a.html\"> tail".data =
    some ("a.html".data, " tail".data) := by decide

example : matchVar "<template variable='title' default='x'>rest".data =
    some ("title".data, some "x".data, "rest".data) := by decide

example : matchVar "<template variable=\"content\"> - ".data =
    some ("content".data, none, " - ".data) := by decide

example : matchInclude "<templatex include=\"a\">".data = none := by decide

/-- The left-to-right scan of `re.sub` for the include pattern, with the
replacement function of `process_includes`: a matched directive is
replaced by the recursively processed contents of the named layouts file
(`recurse`), or by the empty string plus a printed warning when the file
does not exist.  The result pairs the output text with the warnings
printed, in order.  `n` is a step budget that every caller instantiates
with the length of the scanned text; since each step consumes at least one
character, the `0` case is never reached from those call sites (it is a
structural-recursion artifact, not program behavior). -/
def scanIncludes (fs : List (String × String))
    (recurse : List Char → Option (List Char × List String)) :
    Nat → List Char → Option (List Char × List String)
  | _, [] => some ([], [])
  | 0, _ :: _ => none
  | n + 1, c :: cs =>
    match matchInclude (c :: cs) with
    | some (name, rest) =>
      match (match lookupFS fs (String.mk name) with
             | some content => recurse content.data
             | none => some ([], [includeWarning name])) with
      | none => none
      | some rw =>
        match scanIncludes fs recurse n rest with
        | none => none
        | some tw => some (rw.1 ++ tw.1, rw.2 ++ tw.2)
    | none =>
      match scanIncludes fs recurse n cs with
      | none => none
      | some tw => some (c :: tw.1, tw.2)

/-- `process_includes`: one call scans its argument, and each include
directive triggers a nested call on the included file's contents.  `fuel`
bounds the depth of nested calls; `none` means the recursion did not
complete within that depth (the source has no guard of its own, so on a
cyclic include graph no fuel suffices). -/
def processIncludes (fs : List (String × String)) : Nat → List Char → Option (List Char × List String)
  | 0, _ => none
  | fuel + 1, cs => scanIncludes fs (processIncludes fs fuel) cs.length cs

/-- Locate the first include directive in a text: the text before it, the
captured name, and the text after the directive.  `none` means the text
contains no include directive. -/
def findInc : List Char → Option (List Char × List Char × List Char)
  | [] => none
  | c :: cs =>
    match matchInclude (c :: cs) with
    | some (name, rest) => some ([], name, rest)
    | none =>
      match findInc cs with
      | some (b, name, rest) => some (c :: b, name, rest)
      | none => none

/-- The `re.sub` scan of `process_variables`: each variable directive is
replaced by `str(variables.get(name, default or ""))`, where metadata
values are strings in this model.  The step budget `n` is instantiated
with the text length exactly as in `scanIncludes`. -/
def scanVariables (md : List (String × String)) : Nat → List Char → List Char
  | _, [] => []
  | 0, c :: cs => c :: cs
  | n + 1, c :: cs =>
    match matchVar (c :: cs) with
    | some (name, dv, rest) =>
      (((dictGet md (String.mk name)).getD (String.mk (dv.getD []))).data)
        ++ scanVariables md n rest
    | none => c :: scanVariables md n cs

/-- `process_variables(content, variables)`. -/
def processVariables (md : List (String × String)) (cs : List Char) : List Char :=
  scanVariables md cs.length cs

example : processIncludes [("h.html", "HEAD")] 2 "a <template include='h.html'> b".data =
    some ("a HEAD b".data, []) := by decide

example : processIncludes [] 1 "a <template include='h.html'> b".data =
    some ("a  b".data, ["Warning: Include file not found: h.html"]) := by decide

example : processVariables [("title", "Hi")]
    "<template variable=\"title\">-<template variable=\"x\" default=\"d\">".data =
    "Hi-d".data := by decide

/-- Split off the maximal whitespace run (`\s*` greedy, before
backtracking). -/
def wsRun : List Char → List Char × List Char
  | [] => ([], [])
  | c :: cs =>
    if isWS c then
      match wsRun cs with
      | (w, t) => (c :: w, t)
    else ([], c :: cs)

/-- Backtracking for `\s*\n` whose continuation always succeeds (it is
followed by `(.*)$` with `re.DOTALL`): the engine commits to the largest
prefix of the whitespace run that ends in a newline.  The input is the
run reversed; the result is the part of the run after its last newline,
or `none` when the run contains no newline. -/
def sufAfterNlRev : List Char → Option (List Char)
  | [] => none
  | c :: rw =>
    if c = '\n' then some []
    else
      match sufAfterNlRev rw with
      | some s => some (s ++ [c])
      | none => none

/-- Try to match the closing `\n---\s*\n(.*)$` of the front-matter pattern
at this position, returning the final capture (the body). -/
def closingAt (cs : List Char) : Option (List Char) :=
  match dropLit "\n---".data cs with
  | none => none
  | some r =>
    match wsRun r with
    | (w, t) =>
      match sufAfterNlRev w.reverse with
      | some s => some (s ++ t)
      | none => none

/-- The lazy `(.*?)` of the front-matter pattern (`re.DOTALL`, so it may
span newlines): find the earliest position where the closing part
matches; the capture is the text before it. -/
def middleFind : List Char → Option (List Char × List Char)
  | [] => none
  | c :: cs =>
    match closingAt (c :: cs) with
    | some body => some ([], body)
    | none =>
      match middleFind cs with
      | some (fm, body) => some (c :: fm, body)
      | none => none

/-- Backtracking for the opening `---\s*\n` whose continuation is the rest
of the pattern: try the candidate split points of the whitespace run in
greedy order (each candidate must sit on a newline), running the middle
search on the remainder; fall back to the next smaller candidate on
failure.  `rw` is the unscanned part of the run reversed, `acc` the part
of the run after the current split point, `t` the text after the run. -/
def outerTry (t : List Char) : List Char → List Char → Option (List Char × List Char)
  | [], _ => none
  | c :: rw, acc =>
    if c = '\n' then
      match middleFind (acc ++ t) with
      | some r => some r
      | none => outerTry t rw (c :: acc)
    else outerTry t rw (c :: acc)

/-- `re.match(r'^---\s*\n(.*?)\n---\s*\n(.*)$', content, re.DOTALL)`:
returns the two captures (front-matter text, body) on success. -/
def fmMatch (content : List Char) : Option (List Char × List Char) :=
  match dropLit "---".data content with
  | none => none
  | some r1 =>
    match wsRun r1 with
    | (w, t) => outerTry t w.reverse []

/-- `str.splitlines()` restricted to the line endings that can occur in
this model: `\n`, `\r\n` and `\r` (no trailing empty line). -/
def splitLinesPy : List Char → List (List Char)
  | [] => []
  | '\n' :: cs => [] :: splitLinesPy cs
  | '\r' :: '\n' :: cs => [] :: splitLinesPy cs
  | '\r' :: cs => [] :: splitLinesPy cs
  | c :: cs =>
    match splitLinesPy cs with
    | [] => [[c]]
    | l :: ls => (c :: l) :: ls

/-- `str.strip()` on ASCII whitespace. -/
def pyStrip (l : List Char) : List Char :=
  ((l.dropWhile isWS).reverse.dropWhile isWS).reverse

/-- `line.split(':', 1)` guarded by `':' in line`. -/
def splitFirstColon : List Char → Option (List Char × List Char)
  | [] => none
  | c :: cs =>
    if c = ':' then some ([], cs)
    else
      match splitFirstColon cs with
      | some (k, v) => some (c :: k, v)
      | none => none

/-- The line-oriented fallback metadata parser (the `HAS_YAML = False`
branch): split lines, take `key: value` at the first colon, strip both
parts, ignore lines without a colon.  The structured backend is required
by the spec to agree with this one on simple scalar key-value input. -/
def parseSimpleFM (fm : List Char) : List (String × String) :=
  (splitLinesPy fm).foldl
    (fun md line =>
      match splitFirstColon line with
      | some (k, v) => dictSet md (String.mk (pyStrip k)) (String.mk (pyStrip v))
      | none => md)
    []

/-- `parse_frontmatter`: on a regex match, parse the first capture as
metadata and return the second as body; otherwise empty metadata and the
whole input. -/
def parseFrontmatter (content : String) : List (String × String) × String :=
  match fmMatch content.data with
  | some (fm, body) => (parseSimpleFM fm, String.mk body)
  | none => ([], content)

example : parseFrontmatter "---\nlayout: base.html\ntitle: Hi\n---\nHello" =
    ([("layout", "base.html"), ("title", "Hi")], "Hello") := by decide

example : parseFrontmatter "no frontmatter\nhere" = ([], "no frontmatter\nhere") := by decide

example : parseFrontmatter "---\ntitle: Hi\n---" = ([], "---\ntitle: Hi\n---") := by decide

example : parseFrontmatter "---\n\n---\n body" = ([], " body") := by decide

/-- Split a file name at its last dot: `some (before, after)` with `after`
dot-free, or `none` when the name has no dot. -/
def splitLastDot : List Char → Option (List Char × List Char)
  | [] => none
  | c :: cs =>
    match splitLastDot cs with
    | some (a, b) => some (c :: a, b)
    | none => if c = '.' then some ([], cs) else none

/-- `PurePath.with_suffix('')` on a file name: remove the suffix, where a
name has a suffix exactly when its last dot is neither the first nor the
last character (so `.html` and `name.` keep their text). -/
def withSuffixEmpty (name : List Char) : List Char :=
  match splitLastDot name with
  | some (a, b) => if a ≠ [] ∧ b ≠ [] then a else name
  | none => name

/-- Paths are modelled as their list of segments; `Path.name` is the last
segment. -/
def relName (rel : List String) : String :=
  rel.getLast?.getD ""

/-- The output-path mapping of `build_page` (lines 143-152): a file named
exactly `index.html` keeps its content-relative path; any other file
`dir/name.ext` becomes `dir/name/index.html` via `with_suffix('')`. -/
def outputRelPath (rel : List String) : List String :=
  if relName rel = "index.html" then rel
  else rel.dropLast ++ [String.mk (withSuffixEmpty (relName rel).data), "index.html"]

/-- `str(path)` for a relative path on a forward-slash platform. -/
def pathString (rel : List String) : String :=
  String.intercalate "/" rel

/-- The warning printed by `build_page` for a missing layout (the printed
Python version shows the absolute content-file path; here the
content-relative path stands in for it). -/
def layoutWarning (layoutName : String) (rel : List String) : String :=
  "Warning: Layout " ++ layoutName ++ " not found for " ++ pathString rel

/-- `build_page` minus the file reads, which are supplied as arguments:
`rel` is the content-relative path of the file and `raw` its text, and
layout files are read from `layouts`.  Returns the output-relative path,
the final HTML, the metadata (including the synthetic `content` key when
a layout was applied) and the printed warnings; `none` models the call
dying with a `RecursionError` inside `process_includes`. -/
def buildPage (layouts : List (String × String)) (fuel : Nat)
    (rel : List String) (raw : String) :
    Option (List String × String × List (String × String) × List String) :=
  match parseFrontmatter raw with
  | (metadata, body) =>
    match (match dictGet metadata "layout" with
           | some layoutName =>
             match lookupFS layouts layoutName with
             | some layoutText =>
               match processIncludes layouts fuel body.data with
               | none => none
               | some bw =>
                 some (dictSet metadata "content"
                         (String.mk (processVariables metadata bw.1)),
                       layoutText.data, bw.2)
             | none => some (metadata, body.data, [layoutWarning layoutName rel])
           | none => some (metadata, body.data, [])) with
    | none => none
    | some (md, workingBody, w0) =>
      match processIncludes layouts fuel workingBody with
      | none => none
      | some pw =>
        some (outputRelPath rel, String.mk (processVariables md pw.1), md, w0 ++ pw.2)

/-- `generate_sitemap`'s URL derivation for one page path (line 165-167):
`str(path).replace('index.html', '').replace('\\', '/')`, then prefix a
`/` unless one is already there.  Note that Python's `str.replace`
replaces every occurrence of `index.html`, not only a trailing one. -/
def pyReplaceStep (pat rep : List Char) : Nat → List Char → List Char
  | _, [] => []
  | 0, c :: cs => c :: cs
  | n + 1, c :: cs =>
    match dropLit pat (c :: cs) with
    | some rest => rep ++ pyReplaceStep pat rep n rest
    | none => c :: pyReplaceStep pat rep n cs

/-- `str.replace(pat, rep)` for a non-empty `pat` (both patterns the
source uses are non-empty, so the step budget, instantiated with the
input length, is never exhausted). -/
def pyReplace (pat rep cs : List Char) : List Char :=
  pyReplaceStep pat rep cs.length cs

/-- The sitemap URL for one output-relative path string. -/
def sitemapUrlPath (path : String) : String :=
  match pyReplace "\\".data "/".data (pyReplace "index.html".data [] path.data) with
  | '/' :: u => String.mk ('/' :: u)
  | u => String.mk ('/' :: u)

/-- The `<url>` block emitted for one page: location, last-modified date
(`date` metadata or the build date), and priority (1.0 for the root URL,
0.8 otherwise). -/
def sitemapEntry (page : List String × List (String × String)) (today : String) :
    List String :=
  match sitemapUrlPath (pathString page.1) with
  | url =>
    ["  <url>",
     "    <loc>" ++ url ++ "</loc>",
     "    <lastmod>" ++ ((dictGet page.2 "date").getD today) ++ "</lastmod>",
     "    <priority>" ++ (if url = "/" then "1.0" else "0.8") ++ "</priority>",
     "  </url>"]

/-- `generate_sitemap` as the list of lines it writes to `sitemap.xml`. -/
def generateSitemap (pages : List (List String × List (String × String)))
    (today : String) : List String :=
  ["<?xml version=\"1.0\" encoding=\"UTF-8\"?>",
   "<urlset xmlns=\"http://www.sitemaps.org/schemas/sitemap/0.9\">"]
    ++ (pages.map (fun p => sitemapEntry p today)).flatten
    ++ ["</urlset>"]

/-- The per-file loop of `build` over the `.html` files of the content
tree, in walk order: a successful `build_page` writes `(out_path, html)`
and records `(out_path, metadata)` for the sitemap; an exception is
caught, the file is skipped, and its path is logged. -/
def walkBuild (layouts : List (String × String)) (fuel : Nat) :
    List (List String × String) →
    List (List String × String) × List (List String × List (String × String)) × List (List String)
  | [] => ([], [], [])
  | (rel, raw) :: rest =>
    match walkBuild layouts fuel rest with
    | (outs, pages, errs) =>
      match buildPage layouts fuel rel raw with
      | some (out, html, md, _) => ((out, html) :: outs, (out, md) :: pages, errs)
      | none => (outs, pages, rel :: errs)

/-- The result of one `build` run: the files written to the output tree,
the page list collected for the sitemap, the paths of files skipped by
the per-file exception handler, and the sitemap lines. -/
structure BuildResult where
  outputs : List (List String × String)
  pages : List (List String × List (String × String))
  errors : List (List String)
  sitemap : List String
  deriving DecidableEq

/-- `build`, with asset/extra copying (plain directory copies) out of
scope: process every content file, then generate the sitemap from the
collected pages. -/
def build (layouts : List (String × String)) (fuel : Nat)
    (files : List (List String × String)) (today : String) : BuildResult :=
  match walkBuild layouts fuel files with
  | (outs, pages, errs) => ⟨outs, pages, errs, generateSitemap pages today⟩

/-- The state of `SSGEventHandler`: the timestamp of the last triggered
build (`last_build`, initially 0) plus a count of builds run, so that
"exactly one rebuild" is expressible.  Timestamps are rationals; float
rounding plays no role in the debounce comparison. -/
structure WatchState where
  lastBuild : ℚ
  builds : Nat
  deriving DecidableEq

/-- `on_any_event`: ignore directory events and events under `_output`;
ignore any event within 1 second of the last triggered build; otherwise
run a build and record the event's timestamp. -/
def onAnyEvent (st : WatchState) (isDir : Bool) (inOutput : Bool) (now : ℚ) : WatchState :=
  if isDir then st
  else if inOutput then st
  else if now - st.lastBuild < 1 then st
  else { lastBuild := now, builds := st.builds + 1 }

/-- Line decomposition used to state the front-matter claims: split at
every `\n`, keeping a (possibly empty) final unterminated line. -/
def splitNl : List Char → List (List Char)
  | [] => [[]]
  | '\n' :: cs => [] :: splitNl cs
  | c :: cs =>
    match splitNl cs with
    | [] => [[c]]
    | l :: ls => (c :: l) :: ls

/-- A front-matter delimiter line: `---` followed by nothing but
whitespace. -/
def isDelim (l : List Char) : Bool :=
  match dropLit "---".data l with
  | some r => r.all isWS
  | none => false

example : outputRelPath ["blog", "post1.html"] = ["blog", "post1", "index.html"] := by decide

example : sitemapUrlPath "blog/post1/index.html" = "/blog/post1/" := by decide

example : (build [] 1 [(["index.html"], "hi")] "2026-01-01").sitemap =
    ["<?xml version=\"1.0\" encoding=\"UTF-8\"?>",
     "<urlset xmlns=\"http://www.sitemaps.org/schemas/sitemap/0.9\">",
     "  <url>",
     "    <loc>/</loc>",
     "    <lastmod>2026-01-01</lastmod>",
     "    <priority>1.0</priority>",
     "  </url>",
     "</urlset>"] := by decide

/-- C4: for a content file carrying metadata `layout: base.html`,
`title: Hi` and body `Hello`, with `layouts/base.html` containing
`<template variable="content"> - <template variable="title">`, the page
renders to `Hello - Hi`: the body is include-expanded and
variable-substituted first and stored under `metadata["content"]`, then
the layout text becomes the working body and a second include-then-
variable pass consumes the `content` variable. -/
theorem buildPage_layout_example :
    buildPage
      [("base.html", "<template variable=\"content\"> - <template variable=\"title\">")]
      64 ["page.html"] "---\nlayout: base.html\ntitle: Hi\n---\nHello" =
    some (["page", "index.html"], "Hello - Hi",
          [("layout", "base.html"), ("title", "Hi"), ("content", "Hello")], []) := by
  decide

/-- C2 counterexample: the sitemap URL derivation uses Python
`str.replace`, which removes every occurrence of `index.html`, so an
occurrence inside a directory name is not left intact: the output path
`index.htmlfoo/bar/index.html` yields `/foo/bar/`, not
`/index.htmlfoo/bar/` as the claim requires. -/
theorem generateSitemap_url_inner_occurrence :
    sitemapUrlPath "index.htmlfoo/bar/index.html" = "/foo/bar/" ∧
    sitemapUrlPath "index.htmlfoo/bar/index.html" ≠ "/index.htmlfoo/bar/" := by
  decide

/-- C8: in the event-based watch mode, when a change event triggers a
build (it is a file event, not under the output directory, and at least
1 second past the last build) and a second such event arrives less than
1 second later, exactly one build runs: the second event is inside the
debounce window measured from the first event's recorded timestamp. -/
theorem onAnyEvent_debounce_single_rebuild (lb t1 t2 : ℚ) (n : Nat)
    (h1 : 1 ≤ t1 - lb) (_h2 : t1 ≤ t2) (h3 : t2 - t1 < 1) :
    (onAnyEvent (onAnyEvent ⟨lb, n⟩ false false t1) false false t2).builds = n + 1 := by
  have hA : ¬(t1 - lb < 1) := not_lt.mpr h1
  rw [show onAnyEvent ⟨lb, n⟩ false false t1 = ⟨t1, n + 1⟩ by simp [onAnyEvent, hA]]
  simp [onAnyEvent, h3]

theorem onAnyEvent_debounce_witness :
    (1 : ℚ) ≤ 2 - 0 ∧ (2 : ℚ) ≤ 2 ∧ (2 : ℚ) - 2 < 1 ∧
    (onAnyEvent (onAnyEvent ⟨0, 0⟩ false false 2) false false 2).builds = 0 + 1 :=
  ⟨by simp, by simp, by simp,
   onAnyEvent_debounce_single_rebuild 0 2 2 0 (by simp) (by simp) (by simp)⟩

lemma splitLastDot_no_dot (l : List Char) (h : ∀ c ∈ l, c ≠ '.') :
    splitLastDot l = none := by
  induction l with
  | nil => rfl
  | cons c cs ih =>
    have hcs := ih (fun x hx => h x (List.mem_cons_of_mem c hx))
    simp only [splitLastDot, hcs]
    rw [if_neg (h c (List.mem_cons_self c cs))]

lemma splitLastDot_append_dot (a b : List Char) (hb : ∀ c ∈ b, c ≠ '.') :
    splitLastDot (a ++ '.' :: b) = some (a, b) := by
  induction a with
  | nil => simp [List.nil_append, splitLastDot, splitLastDot_no_dot b hb]
  | cons c a' ih =>
    have hl : (c :: a') ++ '.' :: b = c :: (a' ++ '.' :: b) := rfl
    rw [hl]
    simp only [splitLastDot, ih]

lemma withSuffixEmpty_html (nm : List Char) (h : nm ≠ []) :
    withSuffixEmpty (nm ++ ".html".data) = nm := by
  have hd : nm ++ ".html".data = nm ++ '.' :: "html".data := rfl
  rw [hd]
  simp only [withSuffixEmpty, splitLastDot_append_dot nm "html".data (by decide)]
  rw [if_pos ⟨h, by decide⟩]

/-- C3: the output path of `build_page`: a content file whose name is
exactly `index.html` keeps its content-relative path; any other file
`dir/name.html` maps to `dir/name/index.html`. -/
theorem buildPage_output_path_mapping (dir : List String) (name : String)
    (h : name ≠ "") :
    outputRelPath (dir ++ [name ++ ".html"]) =
      if name ++ ".html" = "index.html" then dir ++ [name ++ ".html"]
      else dir ++ [name, "index.html"] := by
  have hname : relName (dir ++ [name ++ ".html"]) = name ++ ".html" := by
    simp [relName, List.getLast?_concat]
  have hnd : name.data ≠ [] := by
    intro hd
    apply h
    cases name with
    | mk d => simp only at hd; rw [hd]
  by_cases hc : name ++ ".html" = "index.html"
  · rw [if_pos hc]
    unfold outputRelPath
    rw [hname, if_pos hc]
  · rw [if_neg hc]
    unfold outputRelPath
    rw [hname, if_neg hc, List.dropLast_concat]
    have hdata : (name ++ ".html").data = name.data ++ ".html".data := rfl
    rw [hdata, withSuffixEmpty_html name.data hnd]

theorem buildPage_output_path_witness :
    ("index" : String) ≠ "" ∧ ("post1" : String) ≠ "" ∧
    outputRelPath ["index.html"] = ["index.html"] ∧
    outputRelPath ["blog", "index.html"] = ["blog", "index.html"] ∧
    outputRelPath ["blog", "post1.html"] = ["blog", "post1", "index.html"] :=
  ⟨by decide, by decide,
   (buildPage_output_path_mapping [] "index" (by decide)).trans (by decide),
   (buildPage_output_path_mapping ["blog"] "index" (by decide)).trans (by decide),
   (buildPage_output_path_mapping ["blog"] "post1" (by decide)).trans (by decide)⟩

/-- A layouts directory containing one self-referential include:
`a.html` includes `a.html`. -/
def selfFS : List (String × String) := [("a.html", "<template include=\"a.html\">")]

/-- The text of that self-referential layout file. -/
def selfTag : List Char := "<template include=\"a.html\">".data

lemma scanIncludes_selfTag (r : List Char → Option (List Char × List String)) :
    scanIncludes selfFS r selfTag.length selfTag =
      match r selfTag with
      | none => none
      | some rw => some (rw.1 ++ [], rw.2 ++ []) := rfl

/-- C1: the source `process_includes` has no recursion-depth guard and no
`TemplateCycleError`: on the self-referential include graph `selfFS`, no
nesting depth whatsoever completes the expansion — the Python original
recurses until the interpreter kills it with a `RecursionError`. -/
theorem processIncludes_self_include_diverges (fuel : Nat) :
    processIncludes selfFS fuel selfTag = none := by
  induction fuel with
  | zero => rfl
  | succ f ih =>
    show scanIncludes selfFS (processIncludes selfFS f) selfTag.length selfTag = none
    rw [scanIncludes_selfTag (processIncludes selfFS f), ih]

lemma dropLit_length : ∀ p cs r : List Char, dropLit p cs = some r →
    r.length + p.length = cs.length := by
  intro p
  induction p with
  | nil =>
    intro cs r h
    simp only [dropLit, Option.some.injEq] at h
    subst h
    simp
  | cons x p ih =>
    intro cs r h
    cases cs with
    | nil => simp [dropLit] at h
    | cons c cs' =>
      simp only [dropLit] at h
      by_cases hc : c = x
      · rw [if_pos hc] at h
        have := ih cs' r h
        simp only [List.length_cons]
        omega
      · rw [if_neg hc] at h
        exact absurd h (by simp)

lemma dropWSall_length : ∀ cs : List Char, (dropWSall cs).length ≤ cs.length := by
  intro cs
  induction cs with
  | nil => simp [dropWSall]
  | cons c cs ih =>
    simp only [dropWSall]
    split
    · simp only [List.length_cons]; omega
    · simp

lemma dropWS1_length (cs r : List Char) : dropWS1 cs = some r → r.length < cs.length := by
  cases cs with
  | nil => simp [dropWS1]
  | cons c cs' =>
    simp only [dropWS1]
    split
    · intro h
      simp only [Option.some.injEq] at h
      subst h
      have := dropWSall_length cs'
      simp only [List.length_cons]
      omega
    · intro h
      exact absurd h (by simp)

lemma tryClose_length (cs r : List Char) : tryClose cs = some r → r.length < cs.length := by
  cases cs with
  | nil => simp [tryClose]
  | cons c cs' =>
    simp only [tryClose]
    intro h
    split at h
    · have hd := dropWSall_length cs'
      split at h
      · rename_i rest heq
        simp only [Option.some.injEq] at h
        subst h
        rw [heq] at hd
        simp only [List.length_cons] at hd ⊢
        omega
      · exact absurd h (by simp)
    · exact absurd h (by simp)

lemma scanName_length : ∀ cs cap rest : List Char,
    scanName cs = some (cap, rest) → rest.length < cs.length := by
  intro cs
  induction cs with
  | nil => simp [scanName]
  | cons c cs' ih =>
    intro cap rest h
    simp only [scanName] at h
    split at h
    · rename_i r0 heq
      simp only [Option.some.injEq, Prod.mk.injEq] at h
      obtain ⟨hcap, hrest⟩ := h
      subst hrest
      exact tryClose_length (c :: cs') r0 heq
    · split at h
      · exact absurd h (by simp)
      · split at h
        · rename_i cap2 rest2 heq
          simp only [Option.some.injEq, Prod.mk.injEq] at h
          obtain ⟨hcap, hrest⟩ := h
          subst hrest
          have := ih cap2 rest2 heq
          simp only [List.length_cons]
          omega
        · exact absurd h (by simp)

lemma matchInclude_length (cs name rest : List Char) :
    matchInclude cs = some (name, rest) → rest.length < cs.length := by
  intro h
  simp only [matchInclude] at h
  split at h
  · exact absurd h (by simp)
  · rename_i r1 h1
    split at h
    · exact absurd h (by simp)
    · rename_i r2 h2
      split at h
      · exact absurd h (by simp)
      · rename_i r3 h3
        split at h
        · exact absurd h (by simp)
        · rename_i c r4
          split at h
          · have l1 := dropLit_length _ _ _ h1
            have l2 := dropWS1_length _ _ h2
            have l3 := dropLit_length _ _ _ h3
            have l4 := scanName_length _ _ _ h
            have e1 : ("<template".data).length = 9 := rfl
            have e3 : ("include=".data).length = 8 := rfl
            rw [e1] at l1
            rw [e3] at l3
            simp only [List.length_cons] at l3 ⊢
            omega
          · exact absurd h (by simp)

lemma findInc_cons_none (c : Char) (cs : List Char) (h : findInc (c :: cs) = none) :
    matchInclude (c :: cs) = none ∧ findInc cs = none := by
  simp only [findInc] at h
  split at h
  · exact absurd h (by simp)
  · rename_i hm
    constructor
    · exact hm
    · split at h
      · exact absurd h (by simp)
      · assumption

/-- A scan over a text with no include directive returns the text
unchanged and prints nothing, for any step budget covering the text. -/
lemma scanIncludes_no_directive (fs : List (String × String))
    (r : List Char → Option (List Char × List String)) :
    ∀ (cs : List Char) (n : Nat), cs.length ≤ n → findInc cs = none →
      scanIncludes fs r n cs = some (cs, []) := by
  intro cs
  induction cs with
  | nil => intro n _ _; cases n <;> rfl
  | cons c cs ih =>
    intro n hn hf
    cases n with
    | zero => simp at hn
    | succ n' =>
      obtain ⟨hm, hf'⟩ := findInc_cons_none c cs hf
      have hn' : cs.length ≤ n' := by
        simp only [List.length_cons] at hn
        omega
      simp only [scanIncludes, hm]
      rw [ih n' hn' hf']

/-- C9: `process_includes` on a document with no include directive is the
identity (with any sufficient nesting budget), hence idempotent: running
it a second time on the output changes nothing. -/
theorem processIncludes_idempotent_no_directives (fs : List (String × String))
    (doc : List Char) (f g : Nat) (h : findInc doc = none) :
    processIncludes fs (f + 1) doc = some (doc, []) ∧
    (processIncludes fs (f + 1) doc).bind (fun rw => processIncludes fs (g + 1) rw.1) =
      processIncludes fs (f + 1) doc := by
  have hA : processIncludes fs (f + 1) doc = some (doc, []) :=
    scanIncludes_no_directive fs (processIncludes fs f) doc doc.length le_rfl h
  have hB : processIncludes fs (g + 1) doc = some (doc, []) :=
    scanIncludes_no_directive fs (processIncludes fs g) doc doc.length le_rfl h
  refine ⟨hA, ?_⟩
  rw [hA]
  simpa using hB

theorem processIncludes_idempotent_witness :
    findInc "hello <b>world</b>".data = none ∧
    processIncludes [] (0 + 1) "hello <b>world</b>".data =
      some ("hello <b>world</b>".data, []) ∧
    (processIncludes [] (0 + 1) "hello <b>world</b>".data).bind
        (fun rw => processIncludes [] (0 + 1) rw.1) =
      processIncludes [] (0 + 1) "hello <b>world</b>".data :=
  ⟨by decide,
   (processIncludes_idempotent_no_directives [] "hello <b>world</b>".data 0 0 (by decide)).1,
   (processIncludes_idempotent_no_directives [] "hello <b>world</b>".data 0 0 (by decide)).2⟩

/-- A scan whose first include directive names a missing file replaces
that directive with the empty string, prints the warning, and leaves the
surrounding text unchanged (when the remainder holds no further
directive). -/
lemma scanIncludes_first_missing (fs : List (String × String))
    (r : List Char → Option (List Char × List String)) :
    ∀ (cs b name rest : List Char) (n : Nat), cs.length ≤ n →
      findInc cs = some (b, name, rest) →
      lookupFS fs (String.mk name) = none → findInc rest = none →
      scanIncludes fs r n cs = some (b ++ rest, [includeWarning name]) := by
  intro cs
  induction cs with
  | nil => intro b name rest n _ h1 _ _; simp [findInc] at h1
  | cons c cs ih =>
    intro b name rest n hn h1 h2 h3
    cases n with
    | zero => simp at hn
    | succ n' =>
      simp only [findInc] at h1
      split at h1
      · rename_i nm rst hm
        simp only [Option.some.injEq, Prod.mk.injEq] at h1
        obtain ⟨hb, hnm, hrst⟩ := h1
        subst hb hnm hrst
        simp only [scanIncludes, hm, h2]
        have hlen : rst.length ≤ n' := by
          have := matchInclude_length (c :: cs) nm rst hm
          simp only [List.length_cons] at this hn
          omega
        rw [scanIncludes_no_directive fs r rst n' hlen h3]
        simp
      · rename_i hm
        split at h1
        · rename_i b2 nm2 rst2 heq
          simp only [Option.some.injEq, Prod.mk.injEq] at h1
          obtain ⟨hb, hnm, hrst⟩ := h1
          subst hb hnm hrst
          have hn' : cs.length ≤ n' := by
            simp only [List.length_cons] at hn
            omega
          simp only [scanIncludes, hm]
          rw [ih b2 nm2 rst2 n' hn' heq h2 h3]
          rfl
        · exact absurd h1 (by simp)

/-- C6: when a text's include directive names a file absent from the
layouts root, `process_includes` removes the directive (substituting the
empty string), keeps the surrounding text byte-for-byte, and prints the
"Include file not found" warning. -/
theorem processIncludes_missing_include_empty (fs : List (String × String)) (f : Nat)
    (text b name rest : List Char)
    (h1 : findInc text = some (b, name, rest))
    (h2 : lookupFS fs (String.mk name) = none)
    (h3 : findInc rest = none) :
    processIncludes fs (f + 1) text = some (b ++ rest, [includeWarning name]) :=
  scanIncludes_first_missing fs (processIncludes fs f) text b name rest
    text.length le_rfl h1 h2 h3

theorem processIncludes_missing_include_witness :
    findInc "A <template include=\"nope.html\"> B".data =
      some ("A ".data, "nope.html".data, " B".data) ∧
    lookupFS [] (String.mk "nope.html".data) = none ∧
    findInc " B".data = none ∧
    processIncludes [] (0 + 1) "A <template include=\"nope.html\"> B".data =
      some ("A ".data ++ " B".data, [includeWarning "nope.html".data]) :=
  ⟨by decide, by decide, by decide,
   processIncludes_missing_include_empty [] 0 "A <template include=\"nope.html\"> B".data
     "A ".data "nope.html".data " B".data (by decide) (by decide) (by decide)⟩

lemma dropLit_self : ∀ p x : List Char, dropLit p (p ++ x) = some x := by
  intro p
  induction p with
  | nil => intro x; rfl
  | cons a p ih => intro x; simp [dropLit, ih]

lemma pyReplaceStep_nil (pat rep : List Char) (n : Nat) :
    pyReplaceStep pat rep n [] = [] := by
  cases n <;> rfl

/-- When the text is `d ++ pat` and `pat` occurs at no position inside
`d`, the scan of `str.replace` reaches the trailing occurrence and
replaces exactly it. -/
lemma pyReplaceStep_all_none (pat rep : List Char) (hne : pat ≠ []) :
    ∀ (d : List Char) (n : Nat), (d ++ pat).length ≤ n →
      (∀ i, i < d.length → dropLit pat (List.drop i d ++ pat) = none) →
      pyReplaceStep pat rep n (d ++ pat) = d ++ rep := by
  intro d
  induction d with
  | nil =>
    intro n hn _
    cases pat with
    | nil => exact absurd rfl hne
    | cons p ps =>
      cases n with
      | zero => simp at hn
      | succ n' =>
        simp only [List.nil_append] at hn ⊢
        have hd : dropLit (p :: ps) (p :: ps) = some [] := by
          have := dropLit_self (p :: ps) []
          simpa using this
        simp only [pyReplaceStep, hd, pyReplaceStep_nil]
        simp
  | cons c d' ih =>
    intro n hn hOcc
    cases n with
    | zero => simp at hn
    | succ n' =>
      have hl : (c :: d') ++ pat = c :: (d' ++ pat) := rfl
      rw [hl]
      have h0 : dropLit pat (c :: (d' ++ pat)) = none := by
        have := hOcc 0 (by simp)
        simpa using this
      simp only [pyReplaceStep, h0]
      rw [ih n' (by simp only [hl, List.length_cons] at hn; omega)
            (fun i hi => by
              have := hOcc (i + 1) (by simp only [List.length_cons]; omega)
              simpa using this)]
      rfl

lemma pyReplaceStep_backslash : ∀ (l : List Char) (n : Nat), l.length ≤ n →
    pyReplaceStep ['\\'] ['/'] n l = l.map (fun c => if c = '\\' then '/' else c) := by
  intro l
  induction l with
  | nil => intro n _; simp [pyReplaceStep_nil]
  | cons c l' ih =>
    intro n hn
    cases n with
    | zero => simp at hn
    | succ n' =>
      have hn' : l'.length ≤ n' := by simp only [List.length_cons] at hn; omega
      by_cases hc : c = '\\'
      · have hd : dropLit ['\\'] (c :: l') = some l' := by simp [dropLit, hc]
        simp only [pyReplaceStep, hd, ih n' hn', List.map_cons]
        rw [if_pos hc]
        rfl
      · have hd : dropLit ['\\'] (c :: l') = none := by simp [dropLit, hc]
        simp only [pyReplaceStep, hd, ih n' hn', List.map_cons]
        rw [if_neg hc]

/-- C2 (amended): the URL derivation removes every occurrence of
`index.html` from the path and converts backslashes; in the common case
where the trailing segment is the only occurrence, the URL is exactly
the path with that trailing segment removed, slashes normalized, and `/`
prefixed. -/
theorem generateSitemap_url_strip_trailing (d : List Char)
    (hOcc : ∀ i, i < d.length →
      dropLit "index.html".data (List.drop i d ++ "index.html".data) = none)
    (h1 : d.head? ≠ some '/') (h2 : d.head? ≠ some '\\') :
    sitemapUrlPath (String.mk (d ++ "index.html".data)) =
      String.mk ('/' :: d.map (fun c => if c = '\\' then '/' else c)) := by
  have hstep1 : pyReplace "index.html".data [] (d ++ "index.html".data) = d := by
    unfold pyReplace
    have := pyReplaceStep_all_none "index.html".data [] (by decide) d
      (d ++ "index.html".data).length le_rfl hOcc
    simpa using this
  have hstep2 : pyReplace "\\".data "/".data d =
      d.map (fun c => if c = '\\' then '/' else c) := by
    unfold pyReplace
    exact pyReplaceStep_backslash d d.length le_rfl
  unfold sitemapUrlPath
  rw [show (String.mk (d ++ "index.html".data)).data = d ++ "index.html".data from rfl,
     hstep1, hstep2]
  cases d with
  | nil => rfl
  | cons c d' =>
    have hc1 : c ≠ '/' := by intro hh; exact h1 (by simp [hh])
    have hc2 : c ≠ '\\' := by intro hh; exact h2 (by simp [hh])
    simp only [List.map_cons]
    rw [if_neg hc2]
    split
    · rename_i u hu
      simp only [List.cons.injEq] at hu
      exact absurd hu.1 hc1
    · rfl

theorem generateSitemap_url_witness :
    (∀ i, i < ("blog/post1/".data).length →
      dropLit "index.html".data (List.drop i "blog/post1/".data ++ "index.html".data) = none) ∧
    sitemapUrlPath "blog/post1/index.html" = "/blog/post1/" :=
  ⟨by decide, by
    have h := generateSitemap_url_strip_trailing "blog/post1/".data
      (by decide) (by decide) (by decide)
    exact h.trans (by decide)⟩

lemma walkBuild_skip (layouts : List (String × String)) (fuel : Nat)
    (brel : List String) (braw : String)
    (h : buildPage layouts fuel brel braw = none) :
    ∀ l1 l2 : List (List String × String),
      (walkBuild layouts fuel (l1 ++ (brel, braw) :: l2)).1 =
        (walkBuild layouts fuel (l1 ++ l2)).1 ∧
      (walkBuild layouts fuel (l1 ++ (brel, braw) :: l2)).2.1 =
        (walkBuild layouts fuel (l1 ++ l2)).2.1 ∧
      brel ∈ (walkBuild layouts fuel (l1 ++ (brel, braw) :: l2)).2.2 := by
  intro l1
  induction l1 with
  | nil =>
    intro l2
    simp only [List.nil_append, walkBuild]
    rcases hW : walkBuild layouts fuel l2 with ⟨o, p, e⟩
    rw [h]
    simp
  | cons f l1' ih =>
    intro l2
    obtain ⟨rel, raw⟩ := f
    simp only [List.cons_append, walkBuild]
    obtain ⟨ho, hp, he⟩ := ih l2
    rcases hW : walkBuild layouts fuel (l1' ++ (brel, braw) :: l2) with ⟨o, p, e⟩
    rcases hW2 : walkBuild layouts fuel (l1' ++ l2) with ⟨o2, p2, e2⟩
    rw [hW, hW2] at ho hp
    rw [hW] at he
    simp only at ho hp he
    cases hB : buildPage layouts fuel rel raw with
    | some v =>
      obtain ⟨out, html, md, w⟩ := v
      simp [ho, hp, he]
    | none => simp [ho, hp, he]

lemma walkBuild_mem (layouts : List (String × String)) (fuel : Nat) :
    ∀ (files : List (List String × String)) (rel : List String) (raw : String)
      (out : List String) (html : String) (md : List (String × String)) (w : List String),
      (rel, raw) ∈ files → buildPage layouts fuel rel raw = some (out, html, md, w) →
      (out, html) ∈ (walkBuild layouts fuel files).1 ∧
      (out, md) ∈ (walkBuild layouts fuel files).2.1 := by
  intro files
  induction files with
  | nil => intro rel raw out html md w hmem _; simp at hmem
  | cons f fs ih =>
    intro rel raw out html md w hmem hB
    obtain ⟨frel, fraw⟩ := f
    simp only [walkBuild]
    rcases hW : walkBuild layouts fuel fs with ⟨o, p, e⟩
    rcases List.mem_cons.mp hmem with heq | hmem'
    · simp only [Prod.mk.injEq] at heq
      obtain ⟨h1, h2⟩ := heq
      subst h1 h2
      rw [hB]
      simp
    · have hih := ih rel raw out html md w hmem' hB
      rw [hW] at hih
      simp only at hih
      cases hB2 : buildPage layouts fuel frel fraw with
      | some v =>
        obtain ⟨out2, html2, md2, w2⟩ := v
        simp [hih.1, hih.2]
      | none => simp [hih.1, hih.2]

lemma generateSitemap_mem (pages : List (List String × List (String × String)))
    (today : String) (page : List String × List (String × String)) (hp : page ∈ pages) :
    ("    <loc>" ++ sitemapUrlPath (pathString page.1) ++ "</loc>") ∈
      generateSitemap pages today := by
  unfold generateSitemap
  refine List.mem_append.mpr (Or.inl (List.mem_append.mpr (Or.inr ?_)))
  refine List.mem_flatten.mpr ⟨sitemapEntry page today, List.mem_map_of_mem _ hp, ?_⟩
  simp [sitemapEntry]

/-- C7: a content file on which `build_page` dies is skipped and logged,
while the rest of the walk is unaffected: the output tree and the sitemap
are those of the same run without the bad file, and every file that
`build_page` does process is written and has its `<loc>` entry in the
sitemap. -/
theorem build_isolates_failing_file (layouts : List (String × String)) (fuel : Nat)
    (l1 l2 : List (List String × String)) (brel : List String) (braw today : String)
    (h : buildPage layouts fuel brel braw = none) :
    (build layouts fuel (l1 ++ (brel, braw) :: l2) today).outputs =
      (build layouts fuel (l1 ++ l2) today).outputs ∧
    (build layouts fuel (l1 ++ (brel, braw) :: l2) today).sitemap =
      (build layouts fuel (l1 ++ l2) today).sitemap ∧
    brel ∈ (build layouts fuel (l1 ++ (brel, braw) :: l2) today).errors ∧
    (∀ (rel out : List String) (raw html : String) (md : List (String × String))
       (w : List String),
       (rel, raw) ∈ l1 ++ (brel, braw) :: l2 →
       buildPage layouts fuel rel raw = some (out, html, md, w) →
       (out, html) ∈ (build layouts fuel (l1 ++ (brel, braw) :: l2) today).outputs ∧
       ("    <loc>" ++ sitemapUrlPath (pathString out) ++ "</loc>") ∈
         (build layouts fuel (l1 ++ (brel, braw) :: l2) today).sitemap) := by
  obtain ⟨ho, hp, he⟩ := walkBuild_skip layouts fuel brel braw h l1 l2
  have hbuild : ∀ files : List (List String × String),
      build layouts fuel files today =
        ⟨(walkBuild layouts fuel files).1, (walkBuild layouts fuel files).2.1,
         (walkBuild layouts fuel files).2.2,
         generateSitemap (walkBuild layouts fuel files).2.1 today⟩ := by
    intro files
    unfold build
    rcases walkBuild layouts fuel files with ⟨o, p, e⟩
    rfl
  refine ⟨?_, ?_, ?_, ?_⟩
  · rw [hbuild, hbuild]
    exact ho
  · rw [hbuild, hbuild]
    simp only [hp]
  · rw [hbuild]
    exact he
  · intro rel out raw html md w hmem hB
    have hm := walkBuild_mem layouts fuel (l1 ++ (brel, braw) :: l2) rel raw out html md w hmem hB
    rw [hbuild]
    exact ⟨hm.1, generateSitemap_mem _ today (out, md) hm.2⟩

theorem build_isolates_failing_witness :
    buildPage selfFS 1 ["bad.html"] "<template include=\"a.html\">" = none ∧
    (["bad.html"] : List String) ∈
      (build selfFS 1
        [(["good1.html"], "hi"), (["bad.html"], "<template include=\"a.html\">"),
         (["good2.html"], "yo")] "2026-01-01").errors :=
  ⟨by decide, by
    have h := build_isolates_failing_file selfFS 1 [(["good1.html"], "hi")]
      [(["good2.html"], "yo")] ["bad.html"] "<template include=\"a.html\">"
      "2026-01-01" (by decide)
    exact h.2.2.1⟩

lemma dropLit_sound : ∀ p cs r : List Char, dropLit p cs = some r → cs = p ++ r := by
  intro p
  induction p with
  | nil =>
    intro cs r h
    simp only [dropLit, Option.some.injEq] at h
    rw [h]
    rfl
  | cons x p ih =>
    intro cs r h
    cases cs with
    | nil => simp [dropLit] at h
    | cons c cs' =>
      simp only [dropLit] at h
      split at h
      · rename_i hc
        rw [hc, ih cs' r h]
        rfl
      · exact absurd h (by simp)

lemma wsRun_sound : ∀ cs w t : List Char, wsRun cs = (w, t) → cs = w ++ t ∧ w.all isWS = true := by
  intro cs
  induction cs with
  | nil =>
    intro w t h
    simp only [wsRun, Prod.mk.injEq] at h
    obtain ⟨h1, h2⟩ := h
    subst h1 h2
    exact ⟨rfl, rfl⟩
  | cons c cs' ih =>
    intro w t h
    simp only [wsRun] at h
    split at h
    · rename_i hws
      rcases hW : wsRun cs' with ⟨w', t'⟩
      rw [hW] at h
      simp only [Prod.mk.injEq] at h
      obtain ⟨h1, h2⟩ := h
      subst h1 h2
      obtain ⟨ih1, ih2⟩ := ih w' t' hW
      refine ⟨by rw [ih1]; rfl, ?_⟩
      simp [List.all_cons, hws, ih2]
    · rename_i hws
      simp only [Prod.mk.injEq] at h
      obtain ⟨h1, h2⟩ := h
      subst h1 h2
      exact ⟨rfl, rfl⟩

lemma sufAfterNlRev_sound : ∀ rw s : List Char, sufAfterNlRev rw = some s →
    ∃ u, rw.reverse = u ++ '\n' :: s := by
  intro rw
  induction rw with
  | nil => simp [sufAfterNlRev]
  | cons c rw' ih =>
    intro s h
    simp only [sufAfterNlRev] at h
    split at h
    · rename_i hc
      simp only [Option.some.injEq] at h
      subst h
      subst hc
      exact ⟨rw'.reverse, by simp⟩
    · cases hs : sufAfterNlRev rw' with
      | none => rw [hs] at h; simp at h
      | some s0 =>
        rw [hs] at h
        simp only [Option.some.injEq] at h
        subst h
        obtain ⟨u, hu⟩ := ih s0 hs
        refine ⟨u, ?_⟩
        rw [List.reverse_cons, hu]
        simp

lemma closingAt_sound : ∀ cs b : List Char, closingAt cs = some b →
    ∃ w2, cs = '\n' :: '-' :: '-' :: '-' :: (w2 ++ '\n' :: b) ∧ w2.all isWS = true := by
  intro cs b h
  simp only [closingAt] at h
  cases h1 : dropLit "\n---".data cs with
  | none => rw [h1] at h; simp at h
  | some r =>
    rw [h1] at h
    dsimp only at h
    rcases h2 : wsRun r with ⟨w, t⟩
    rw [h2] at h
    dsimp only at h
    cases h3 : sufAfterNlRev w.reverse with
    | none => rw [h3] at h; simp at h
    | some s =>
      rw [h3] at h
      simp only [Option.some.injEq] at h
      subst h
      obtain ⟨hr, hall⟩ := wsRun_sound r w t h2
      obtain ⟨u, hu⟩ := sufAfterNlRev_sound w.reverse s h3
      rw [List.reverse_reverse] at hu
      have hcs := dropLit_sound "\n---".data cs r h1
      refine ⟨u, ?_, ?_⟩
      · rw [hcs, hr, hu]
        simp [List.append_assoc]
      · rw [hu] at hall
        simp only [List.all_append, List.all_cons, Bool.and_eq_true] at hall
        exact hall.1

lemma middleFind_sound : ∀ cs g b : List Char, middleFind cs = some (g, b) →
    ∃ r, cs = g ++ r ∧ closingAt r = some b := by
  intro cs
  induction cs with
  | nil => simp [middleFind]
  | cons c cs' ih =>
    intro g b h
    simp only [middleFind] at h
    split at h
    · rename_i body heq
      simp only [Option.some.injEq, Prod.mk.injEq] at h
      obtain ⟨h1, h2⟩ := h
      subst h1 h2
      exact ⟨c :: cs', rfl, heq⟩
    · split at h
      · rename_i g0 b0 heq
        simp only [Option.some.injEq, Prod.mk.injEq] at h
        obtain ⟨h1, h2⟩ := h
        subst h1 h2
        obtain ⟨r, hr, hc⟩ := ih g0 b0 heq
        exact ⟨r, by rw [hr]; rfl, hc⟩
      · exact absurd h (by simp)

lemma outerTry_sound : ∀ (rw acc t : List Char) (res : List Char × List Char),
    outerTry t rw acc = some res →
    ∃ u v, rw.reverse = u ++ '\n' :: v ∧ middleFind (v ++ (acc ++ t)) = some res := by
  intro rw
  induction rw with
  | nil => intro acc t res h; simp [outerTry] at h
  | cons c rw' ih =>
    intro acc t res h
    simp only [outerTry] at h
    split at h
    · rename_i hc
      split at h
      · rename_i r0 heq
        simp only [Option.some.injEq] at h
        subst h
        subst hc
        exact ⟨rw'.reverse, [], by simp, by simpa using heq⟩
      · obtain ⟨u, v, hu, hm⟩ := ih (c :: acc) t res h
        refine ⟨u, v ++ [c], ?_, ?_⟩
        · rw [List.reverse_cons, hu]
          simp
        · simpa [List.append_assoc] using hm
    · obtain ⟨u, v, hu, hm⟩ := ih (c :: acc) t res h
      refine ⟨u, v ++ [c], ?_, ?_⟩
      · rw [List.reverse_cons, hu]
        simp
      · simpa [List.append_assoc] using hm

/-- Soundness of the front-matter matcher: a successful match decomposes
the input as `---`, whitespace ending in a newline, the front-matter
capture, a newline, `---`, whitespace ending in a newline, and the body
capture. -/
lemma fmMatch_sound : ∀ content g b : List Char, fmMatch content = some (g, b) →
    ∃ u w2,
      content =
        '-' :: '-' :: '-' :: (u ++ '\n' :: (g ++ '\n' :: '-' :: '-' :: '-' :: (w2 ++ '\n' :: b))) ∧
      u.all isWS = true ∧ w2.all isWS = true := by
  intro content g b h
  simp only [fmMatch] at h
  cases h1 : dropLit "---".data content with
  | none => rw [h1] at h; simp at h
  | some r1 =>
    rw [h1] at h
    dsimp only at h
    rcases h2 : wsRun r1 with ⟨w, t⟩
    rw [h2] at h
    dsimp only at h
    obtain ⟨u, v, huv, hm⟩ := outerTry_sound w.reverse [] t (g, b) h
    rw [List.reverse_reverse] at huv
    obtain ⟨hr1, hwall⟩ := wsRun_sound r1 w t h2
    obtain ⟨r, hvr, hcl⟩ := middleFind_sound (v ++ ([] ++ t)) g b hm
    obtain ⟨w2, hrw, hw2⟩ := closingAt_sound r b hcl
    have hcontent := dropLit_sound "---".data content r1 h1
    have hvt : v ++ t = g ++ r := by simpa using hvr
    refine ⟨u, w2, ?_, ?_, hw2⟩
    · rw [hcontent, hr1, huv]
      have : (u ++ '\n' :: v) ++ t = u ++ '\n' :: (g ++ r) := by
        rw [← hvt]
        simp [List.append_assoc]
      rw [this, hrw]
      rfl
    · rw [huv] at hwall
      simp only [List.all_append, List.all_cons, Bool.and_eq_true] at hwall
      exact hwall.1

lemma splitNl_ne_nil : ∀ cs : List Char, splitNl cs ≠ [] := by
  intro cs
  induction cs with
  | nil => simp [splitNl]
  | cons c cs' ih =>
    by_cases hc : c = '\n'
    · subst hc; simp [splitNl]
    · simp only [splitNl, hc]
      rcases h : splitNl cs' with _ | ⟨l, ls⟩
      · simp
      · simp

lemma splitNl_head : ∀ cs : List Char,
    (splitNl cs).head? = some (cs.takeWhile (fun c => c != '\n')) := by
  intro cs
  induction cs with
  | nil => rfl
  | cons c cs' ih =>
    by_cases hc : c = '\n'
    · subst hc
      simp [splitNl, List.takeWhile_cons]
    · have hbne : (c != '\n') = true := by simpa using hc
      simp only [splitNl, hc, List.takeWhile_cons, hbne, if_true]
      rcases h : splitNl cs' with _ | ⟨l, ls⟩
      · exact absurd h (splitNl_ne_nil cs')
      · rw [h] at ih
        simp only [List.head?_cons, Option.some.injEq] at ih ⊢
        rw [ih]

lemma splitNl_append_nl : ∀ x y : List Char,
    splitNl (x ++ '\n' :: y) = splitNl x ++ splitNl y := by
  intro x y
  induction x with
  | nil => simp [splitNl]
  | cons c x' ih =>
    by_cases hc : c = '\n'
    · subst hc
      have hl : ('\n' :: x') ++ '\n' :: y = '\n' :: (x' ++ '\n' :: y) := rfl
      rw [hl]
      simp [splitNl, ih]
    · have hl : (c :: x') ++ '\n' :: y = c :: (x' ++ '\n' :: y) := rfl
      rw [hl]
      simp only [splitNl, hc, ih]
      rcases h : splitNl x' with _ | ⟨l, ls⟩
      · exact absurd h (splitNl_ne_nil x')
      · simp

lemma takeWhile_append_break (p : Char → Bool) (u : List Char) (c : Char) (r : List Char)
    (hc : p c = false) : ((u ++ c :: r).takeWhile p) = u.takeWhile p := by
  induction u with
  | nil => simp [List.takeWhile_cons, hc]
  | cons a u' ih =>
    by_cases hp : p a
    · simp [List.takeWhile_cons, hp, ih]
    · simp [List.takeWhile_cons, hp]

lemma takeWhile_all (p q : Char → Bool) (u : List Char) (hu : u.all q = true) :
    ((u.takeWhile p).all q) = true := by
  induction u with
  | nil => simp
  | cons a u' ih =>
    simp only [List.all_cons, Bool.and_eq_true] at hu
    by_cases hp : p a
    · simp [List.takeWhile_cons, hp, List.all_cons, hu.1, ih hu.2]
    · simp [List.takeWhile_cons, hp]

lemma isDelim_dashes (x : List Char) (hx : x.all isWS = true) :
    isDelim ('-' :: '-' :: '-' :: x) = true := by
  unfold isDelim
  have hd : '-' :: '-' :: '-' :: x = "---".data ++ x := rfl
  rw [hd, dropLit_self]
  exact hx

/-- C5: an input none of whose lines is a front-matter delimiter line
(`---` followed only by whitespace) fails the front-matter regex, so
`parse_frontmatter` returns empty metadata and the input unchanged. -/
theorem parseFrontmatter_no_delimiters_identity (content : String)
    (H : ∀ l ∈ splitNl content.data, isDelim l = false) :
    parseFrontmatter content = ([], content) := by
  cases hF : fmMatch content.data with
  | none =>
    unfold parseFrontmatter
    rw [hF]
  | some gb =>
    exfalso
    obtain ⟨g, b⟩ := gb
    obtain ⟨u, w2, hcontent, hu, _⟩ := fmMatch_sound content.data g b hF
    have hline := splitNl_head content.data
    rw [hcontent] at hline
    have hdash : ('-' != '\n') = true := by decide
    rw [List.takeWhile_cons, if_pos hdash, List.takeWhile_cons, if_pos hdash,
       List.takeWhile_cons, if_pos hdash,
       takeWhile_append_break (fun c => c != '\n') u '\n'
         (g ++ '\n' :: '-' :: '-' :: '-' :: (w2 ++ '\n' :: b)) (by decide)] at hline
    have hmem : ('-' :: '-' :: '-' :: u.takeWhile (fun c => c != '\n')) ∈ splitNl content.data := by
      apply List.mem_of_mem_head?
      rw [hcontent]
      simp [hline]
    have hdelim := isDelim_dashes (u.takeWhile (fun c => c != '\n'))
      (takeWhile_all _ isWS u hu)
    rw [H _ hmem] at hdelim
    exact Bool.false_ne_true hdelim

lemma mem_of_middle (M : List (List Char)) (t : List Char) :
    ∀ (A : List (List Char)) (D : List Char) (B : List (List Char)), B ≠ [] →
      M ++ [t] = A ++ D :: B → D ∈ M := by
  induction M with
  | nil =>
    intro A D B hB h
    cases A with
    | nil =>
      simp only [List.nil_append, List.cons.injEq] at h
      exact absurd h.2.symm hB
    | cons a A' =>
      simp only [List.nil_append, List.cons_append, List.cons.injEq] at h
      exact absurd h.2.symm (by simp)
  | cons m M' ih =>
    intro A D B hB h
    cases A with
    | nil =>
      simp only [List.nil_append, List.cons_append, List.cons.injEq] at h
      rw [← h.1]
      exact List.mem_cons_self m M'
    | cons a A' =>
      simp only [List.cons_append, List.cons.injEq] at h
      exact List.mem_cons_of_mem m (ih A' D B hB h.2)

/-- C10: an input whose leading block is well formed except that the
closing `---` is the file's last line, with no trailing newline, is not
recognized: the pattern demands a newline after the closing `---`, so the
whole input (delimiters included) comes back as the body with empty
metadata. -/
theorem parseFrontmatter_unterminated_close_identity (fm : String)
    (H : ∀ l ∈ splitNl fm.data, isDelim l = false) :
    parseFrontmatter ("---\n" ++ fm ++ "\n---") = ([], "---\n" ++ fm ++ "\n---") := by
  cases hF : fmMatch ("---\n" ++ fm ++ "\n---").data with
  | none =>
    unfold parseFrontmatter
    rw [hF]
  | some gb =>
    exfalso
    obtain ⟨g, b⟩ := gb
    obtain ⟨u, w2, hcontent, _, hw2⟩ := fmMatch_sound _ g b hF
    have hdata : ("---\n" ++ fm ++ "\n---").data =
        '-' :: '-' :: '-' :: ('\n' :: (fm.data ++ '\n' :: '-' :: '-' :: '-' :: [])) := by
      have h1 : ("---\n" ++ fm ++ "\n---").data = ("---\n".data ++ fm.data) ++ "\n---".data := rfl
      rw [h1]
      simp [List.append_assoc]
    rw [hdata] at hcontent
    simp only [List.cons.injEq, true_and] at hcontent
    have heq : '\n' :: (fm.data ++ '\n' :: '-' :: '-' :: '-' :: []) =
        u ++ '\n' :: (g ++ '\n' :: '-' :: '-' :: '-' :: (w2 ++ '\n' :: b)) := hcontent
    have hlines := congrArg splitNl heq
    have e1 : splitNl ('\n' :: (fm.data ++ '\n' :: '-' :: '-' :: '-' :: [])) =
        [] :: (splitNl fm.data ++ [['-', '-', '-']]) := by
      rw [show splitNl ('\n' :: (fm.data ++ '\n' :: '-' :: '-' :: '-' :: [])) =
            [] :: splitNl (fm.data ++ '\n' :: '-' :: '-' :: '-' :: []) from rfl,
         splitNl_append_nl fm.data ('-' :: '-' :: '-' :: [])]
      rfl
    have e2 : splitNl (u ++ '\n' :: (g ++ '\n' :: '-' :: '-' :: '-' :: (w2 ++ '\n' :: b))) =
        splitNl u ++ (splitNl g ++ (splitNl ("---".data ++ w2) ++ splitNl b)) := by
      rw [splitNl_append_nl u (g ++ '\n' :: '-' :: '-' :: '-' :: (w2 ++ '\n' :: b)),
         splitNl_append_nl g ('-' :: '-' :: '-' :: (w2 ++ '\n' :: b)),
         show ('-' :: '-' :: '-' :: (w2 ++ '\n' :: b)) =
           (("---".data ++ w2) ++ '\n' :: b) from rfl,
         splitNl_append_nl ("---".data ++ w2) b]
    rw [e1, e2] at hlines
    -- the head of `splitNl ("---" ++ w2)` is an interior delimiter line
    rcases hDT : splitNl ("---".data ++ w2) with _ | ⟨D, T⟩
    · exact absurd hDT (splitNl_ne_nil _)
    · have hD : D = '-' :: '-' :: '-' :: (w2.takeWhile (fun c => c != '\n')) := by
        have hh := splitNl_head ("---".data ++ w2)
        rw [hDT] at hh
        simp only [List.head?_cons, Option.some.injEq] at hh
        rw [hh]
        have hdash : ('-' != '\n') = true := by decide
        have hd3 : "---".data ++ w2 = '-' :: '-' :: '-' :: w2 := rfl
        rw [hd3, List.takeWhile_cons, if_pos hdash, List.takeWhile_cons, if_pos hdash,
           List.takeWhile_cons, if_pos hdash]
      have hDdelim : isDelim D = true := by
        rw [hD]
        exact isDelim_dashes _ (takeWhile_all _ isWS w2 hw2)
      rw [hDT] at hlines
      -- hlines : [] :: (splitNl fm.data ++ [['-','-','-']]) =
      --          splitNl u ++ (splitNl g ++ ((D :: T) ++ splitNl b))
      rcases hU : splitNl u with _ | ⟨a0, A1⟩
      · exact absurd hU (splitNl_ne_nil u)
      · rw [hU] at hlines
        simp only [List.cons_append, List.append_assoc, List.nil_append] at hlines
        have hcons := List.cons.inj hlines
        have hBne : T ++ splitNl b ≠ [] := by
          intro habs
          rcases List.append_eq_nil.mp habs with ⟨-, hb2⟩
          exact splitNl_ne_nil b hb2
        have hmid : D ∈ splitNl fm.data := by
          have h2 := hcons.2
          rw [show A1 ++ (splitNl g ++ (D :: (T ++ splitNl b))) =
                (A1 ++ splitNl g) ++ D :: (T ++ splitNl b) by
              simp [List.append_assoc]] at h2
          exact mem_of_middle (splitNl fm.data) ['-', '-', '-']
            (A1 ++ splitNl g) D (T ++ splitNl b) hBne h2
        exact absurd hDdelim (by rw [H D hmid]; simp)

theorem parseFrontmatter_no_delimiters_witness :
    (∀ l ∈ splitNl "hello\nworld".data, isDelim l = false) ∧
    parseFrontmatter "hello\nworld" = ([], "hello\nworld") :=
  ⟨by decide, parseFrontmatter_no_delimiters_identity "hello\nworld" (by decide)⟩

theorem parseFrontmatter_unterminated_witness :
    (∀ l ∈ splitNl "title: Hi".data, isDelim l = false) ∧
    parseFrontmatter "---\ntitle: Hi\n---" = ([], "---\ntitle: Hi\n---") :=
  ⟨by decide, parseFrontmatter_unterminated_close_identity "title: Hi" (by decide)⟩
